import Mathlib

/-
Verification of the chunked resumable transcription pipeline of the
Video-Transcription-Generator backend.

The development shallowly embeds the relevant parts of the Python source:

  * backend/models/transcript.py   : Transcript / TranscriptSegment records
  * backend/engine/audio_chunker.py: chunk construction (split, one segmenting
    pass, index-derived start times) and chunk directory cleanup
  * backend/engine/transcription_manager.py : model loading, reload, and
    per-chunk transcription with timestamp offsetting
  * backend/engine/job_queue.py    : the single worker loop and the
    cancellation-flag set
  * backend/main.py                : process_transcription_job (the per-job
    orchestrator) and handle_job_failure
  * backend/routers/transcript.py  : start_transcription and
    cancel_transcription

External effects (the media file on disk, the ffmpeg segmenting run, the
inference engine, the concurrent status writes observed through session
refreshes, the in-memory cancellation flag and the wall clock) are supplied
by an explicit environment record, and every durable write and filesystem
effect of the orchestrator is recorded in an event trace.  Machine floats
of the source are modelled by rationals.
-/

namespace VTG

/-- Status enumeration of backend/models/transcript.py (TranscriptionStatus). -/
inductive TranscriptionStatus where
  | pending
  | processing
  | downloading
  | completed
  | failed
  | canceled
  deriving DecidableEq, Repr

/-- One row of the transcript_segments table: a persisted segment. -/
structure Segment where
  startTime : ℚ
  endTime : ℚ
  text : String
  deriving DecidableEq, Repr

/-- The durable transcript record (transcripts table).  last_processed_chunk
and total_chunks are nullable integer columns; timestamps are rationals
(seconds).  Fields not touched by the verified code paths are omitted. -/
structure Transcript where
  status : TranscriptionStatus
  fullText : Option String
  durationSeconds : Option ℚ
  estimatedSeconds : Option ℚ
  errorMessage : Option String
  lastProcessedChunk : Option Nat
  totalChunks : Option Nat
  startedAt : Option ℚ
  createdAt : ℚ
  completedAt : Option ℚ
  deriving DecidableEq, Repr

/-- The durable state for one job: its transcript row together with the
persisted segments of that transcript (in insertion order; the reading
endpoints sort by start_time). -/
structure Db where
  transcript : Transcript
  segments : List Segment
  deriving DecidableEq, Repr

/-- A segment as produced by the inference engine for a single chunk:
timestamps are relative to the chunk start (fields of the faster-whisper
segment object used by the code: segment.start, segment.end, segment.text). -/
structure RawSeg where
  start : ℚ
  stop : ℚ
  text : String
  deriving DecidableEq, Repr

/-- ChunkInfo of backend/engine/audio_chunker.py: index, start time relative
to the source, and measured duration.  The chunk file path is determined by
the index and is not modelled separately. -/
structure ChunkInfo where
  index : Nat
  startTime : ℚ
  duration : ℚ
  deriving DecidableEq, Repr

/-- Chunk list construction of AudioChunker.split_audio: after the single
ffmpeg segmenting pass, the produced files are enumerated in order and chunk
i gets start_time = i * chunk_duration, with its measured duration.  The
recursion enumerates from a given first index (i0). -/
def splitChunksFrom (cd : ℚ) (i0 : Nat) : List ℚ → List ChunkInfo
  | [] => []
  | d :: ds => ⟨i0, (i0 : ℚ) * cd, d⟩ :: splitChunksFrom cd (i0 + 1) ds

/-- AudioChunker.split_audio result given the measured durations of the
produced chunk files. -/
def splitChunks (cd : ℚ) (durs : List ℚ) : List ChunkInfo :=
  splitChunksFrom cd 0 durs

/-- Ordering of segments by start_time (the order_by used by the reading
endpoints and the resume preload). -/
abbrev segLE (a b : Segment) : Prop := a.startTime ≤ b.startTime

/-- Strict ordering of segments by start_time. -/
abbrev segLT (a b : Segment) : Prop := a.startTime < b.startTime

/-- Retrieval of segments ordered by start_time, as done by the database
order_by clause (a stable sort of the stored rows). -/
def sortByStart (l : List Segment) : List Segment :=
  List.insertionSort segLE l

/-- Space-separated concatenation of the texts of a segment list; this is the
" ".join used by process_transcription_job to build full_text. -/
def concatTexts (l : List Segment) : String :=
  String.intercalate " " (l.map (fun s => s.text))

/-- Python str.strip(): leading and trailing whitespace removed. -/
def stripStr (s : String) : String :=
  ⟨((s.data.dropWhile Char.isWhitespace).reverse.dropWhile Char.isWhitespace).reverse⟩

/-- Timestamp adjustment of TranscriptionManager.transcribe_chunk: every
engine segment gets time_offset added to both timestamps, and the text is
stripped. -/
def shiftSegs (offset : ℚ) (raw : List RawSeg) : List Segment :=
  raw.map (fun s => ⟨s.start + offset, s.stop + offset, stripStr s.text⟩)

/-- Failure taxonomy of the transcription manager: FileNotFoundError for a
missing chunk file, RuntimeError for an engine that cannot load. -/
inductive EngineFailure where
  | notFound (msg : String)
  | runtimeErr (msg : String)
  deriving DecidableEq, Repr

/-- State of the TranscriptionManager singleton: the configured model name
and the loaded model instance (identified by the name it was loaded under;
none models self._model is None). -/
structure ManagerState where
  modelName : String
  model : Option String
  deriving DecidableEq, Repr

/-- TranscriptionManager._load_model: a no-op when a model instance is
already cached; otherwise attempts the load (loadOk is the outcome of the
WhisperModel construction, CUDA attempt with CPU fallback included).
Returns the new state and whether a model is now loaded (false models the
exception propagating). -/
def loadModel (st : ManagerState) (loadOk : Bool) : ManagerState × Bool :=
  match st.model with
  | some _ => (st, true)
  | none =>
    if loadOk then ({ st with model := some st.modelName }, true)
    else (st, false)

/-- TranscriptionManager.reload_model: no-op when the requested model is
already the loaded one; otherwise the current instance is dropped and the
stored name switched before the eager load is attempted. -/
def reloadModel (st : ManagerState) (newName : String) (loadOk : Bool) :
    ManagerState × Bool :=
  if st.modelName = newName ∧ st.model.isSome then (st, true)
  else loadModel { modelName := newName, model := none } loadOk

/-- Diagnostic messages used by the manager model. -/
def loadFailMsg : String := "faster-whisper is not installed"

/-- Message of the FileNotFoundError raised for a missing chunk file. -/
def chunkNotFoundMsg : String := "Chunk file not found"

/-- TranscriptionManager.transcribe_chunk: loads the model first (raising if
that fails), then raises FileNotFoundError if the chunk file is missing,
otherwise returns the offset-shifted segments and the detected language.
raw and detLang are the underlying engine result for this chunk. -/
def transcribeChunkSt (st : ManagerState) (loadOk : Bool) (chunkExists : Bool)
    (raw : List RawSeg) (detLang : String) (offset : ℚ) :
    ManagerState × Except EngineFailure (List Segment × String) :=
  match loadModel st loadOk with
  | (st2, false) => (st2, .error (.runtimeErr loadFailMsg))
  | (st2, true) =>
    if chunkExists then (st2, .ok (shiftSegs offset raw, detLang))
    else (st2, .error (.notFound chunkNotFoundMsg))

/-- An in-memory job record of the queue (TranscriptionJob). -/
structure TranscriptionJob where
  mediaId : Nat
  filePath : String
  language : Option String
  deriving DecidableEq, Repr

/-- Observable events of one worker-loop iteration of JobQueue._worker_loop. -/
inductive WorkerEvent where
  | failureCallback (mediaId : Nat) (msg : String)
  | processorCalled (mediaId : Nat)
  deriving DecidableEq, Repr

/-- Outcome of the processor coroutine for the dequeued job: normal return
or a raised exception. -/
inductive ProcOutcome where
  | ok
  | raises (msg : String)
  deriving DecidableEq, Repr

/-- The process-wide cancellation set of JobQueue, modelled as a duplicate
free list of media ids. -/
structure QueueState where
  cancelled : List Nat
  deriving DecidableEq, Repr

/-- JobQueue.cancel_job: insert into the cancellation set (idempotent). -/
def cancelJob (s : QueueState) (mediaId : Nat) : QueueState :=
  if mediaId ∈ s.cancelled then s else ⟨mediaId :: s.cancelled⟩

/-- JobQueue.clear_cancelled: remove the id from the cancellation set. -/
def clearCancelled (s : QueueState) (mediaId : Nat) : QueueState :=
  ⟨s.cancelled.filter (fun y => y ≠ mediaId)⟩

/-- Result of one worker-loop iteration: the new cancellation-set state, the
events of the iteration, and whether the loop exits. -/
structure StepResult where
  state : QueueState
  events : List WorkerEvent
  stopped : Bool
  deriving DecidableEq, Repr

/-- One iteration of JobQueue._worker_loop after popping item from the
queue: none is the shutdown sentinel; a pre-cancelled job is skipped with the
failure callback (when one is installed) and its flag cleared; otherwise the
processor runs, any exception it raises being caught and logged, and the
flag cleared in the finally block. -/
def workerStep (hasFailureCb : Bool) (st : QueueState)
    (item : Option TranscriptionJob) (proc : ProcOutcome) : StepResult :=
  match item with
  | none => { state := st, events := [], stopped := true }
  | some job =>
    if job.mediaId ∈ st.cancelled then
      { state := clearCancelled st job.mediaId
        events :=
          if hasFailureCb then
            [.failureCallback job.mediaId "Cancelled before processing"]
          else []
        stopped := false }
    else
      match proc with
      | .ok =>
        { state := clearCancelled st job.mediaId
          events := [.processorCalled job.mediaId]
          stopped := false }
      | .raises _ =>
        { state := clearCancelled st job.mediaId
          events := [.processorCalled job.mediaId]
          stopped := false }

/-- Durable writes and filesystem effects of one processing attempt of
process_transcription_job.  commitT records the transcript row as committed
by a session commit; cleanup records deletion of the job chunk directory
(AudioChunker.cleanup_chunks); splitCalled / listExistingCalled record which
chunk-obtaining operation of the splitter ran; segmentsDeleted records a bulk
delete of the persisted segments of the job; transcribeCalled records an
invocation of the inference engine for a chunk index. -/
inductive Event where
  | splitCalled
  | listExistingCalled
  | transcribeCalled (idx : Nat)
  | segmentsDeleted
  | cleanup
  | commitT (t : Transcript)
  deriving DecidableEq, Repr

/-- Environment of one processing attempt: the outcomes of all external
interactions of process_transcription_job.  split is the outcome of
AudioChunker.split_audio (the measured durations of the produced chunk
files, or the raised error text); engine i is the outcome of the inference
call for chunk i (the raw per-chunk segments and detected language, or the
raised error text, load failures included); qCancel i is the value of
JobQueue.is_cancelled observed at the top of the loop iteration for chunk i;
statusCheck1 i / statusCheck2 i are the transcript statuses read by the
session refreshes before and after the inference call for chunk i (they
reflect concurrent commits by the API layer); now is the wall clock at the
start of the attempt, finishedAt at completion, and elapsedAt i the elapsed
seconds observed after chunk i for the ETA computation. -/
structure Env where
  mediaExists : Bool
  split : Except String (List ℚ)
  engine : Nat → Except String (List RawSeg × String)
  qCancel : Nat → Bool
  statusCheck1 : Nat → TranscriptionStatus
  statusCheck2 : Nat → TranscriptionStatus
  now : ℚ
  finishedAt : ℚ
  elapsedAt : Nat → ℚ

/-- Python truthiness of the optional language string: None and the empty
string are falsy (the condition "not job.language"). -/
def langFalsy : Option String → Bool
  | none => true
  | some s => s = ""

/-- Running state of the per-chunk loop of process_transcription_job:
committed is the durable state as of the last session commit, acc the
all_segments_text buffer, lang the (possibly locked) job language, totalDur
the running total_duration, and events the effect trace so far. -/
structure LoopSt where
  committed : Db
  acc : List String
  lang : Option String
  totalDur : ℚ
  events : List Event

/-- How the per-chunk loop ended: normally, by the queue-flag cancellation
check, by a CANCELED status read from a refresh, or by an exception from the
inference call. -/
inductive LoopExit where
  | done
  | flagCancel
  | dbCancel
  | engineErr (msg : String)
  deriving DecidableEq, Repr

/-- The per-chunk loop of process_transcription_job (main.py lines 151-226).
For each chunk, in order: the queue cancellation flag is checked; chunks
below the resume point k are skipped; the refreshed status is checked for
CANCELED (on which the chunk directory is deleted and the loop returns);
the chunk is transcribed (an exception ending the attempt); the detected
language is locked when none was given; the refreshed status is checked for
CANCELED again; then the new segments are added, last_processed_chunk is
advanced to index + 1, the ETA recomputed, and the session committed (the
checkpoint). -/
def stepTranscript (env : Env) (total : Nat) (c : ChunkInfo) (t : Transcript) :
    Transcript :=
  { t with lastProcessedChunk := some (c.index + 1)
           estimatedSeconds := some (env.elapsedAt c.index / ((c.index : ℚ) + 1) *
             ((total : ℚ) - ((c.index : ℚ) + 1))) }

/-- The loop state after a successfully transcribed and committed chunk:
segments appended, text buffer extended, language possibly locked, running
duration updated, and the checkpoint commit recorded. -/
def stepState (env : Env) (total : Nat) (c : ChunkInfo) (raw : List RawSeg)
    (detLang : String) (st : LoopSt) : LoopSt :=
  { committed := ⟨stepTranscript env total c st.committed.transcript,
      st.committed.segments ++ shiftSegs c.startTime raw⟩
    acc := st.acc ++ (shiftSegs c.startTime raw).map (fun s => s.text)
    lang := if langFalsy st.lang && !(detLang = "") then some detLang else st.lang
    totalDur := c.startTime + c.duration
    events := st.events ++ [.transcribeCalled c.index,
      .commitT (stepTranscript env total c st.committed.transcript)] }

def go (env : Env) (total : Nat) (k : Nat) :
    List ChunkInfo → LoopSt → LoopSt × LoopExit
  | [], st => (st, .done)
  | c :: rest, st =>
    if env.qCancel c.index then (st, .flagCancel)
    else if c.index < k then go env total k rest st
    else if env.statusCheck1 c.index = .canceled then
      ({ st with events := st.events ++ [.cleanup] }, .dbCancel)
    else
      match env.engine c.index with
      | .error e =>
        ({ st with events := st.events ++ [.transcribeCalled c.index] }, .engineErr e)
      | .ok (raw, detLang) =>
        if env.statusCheck2 c.index = .canceled then
          let st2 := { st with
            lang := if langFalsy st.lang && !(detLang = "") then some detLang else st.lang
            events := st.events ++ [.transcribeCalled c.index, .cleanup] }
          (st2, .dbCancel)
        else
          go env total k rest (stepState env total c raw detLang st)

/-- How a processing attempt ended, as recorded by the worker: normal
completion, one of the two cancellation exits, or a caught exception handed
to handle_job_failure with its message. -/
inductive ExitKind where
  | finished
  | flagCancel
  | dbCancel
  | failedExit (msg : String)
  deriving DecidableEq, Repr

/-- Result of one processing attempt: the final durable state, the effect
trace, and the exit kind. -/
structure RunResult where
  db : Db
  events : List Event
  exit : ExitKind
  deriving Repr

/-- handle_job_failure (main.py lines 248-263): in a fresh session, the
transcript status is set to FAILED and error_message to the exception text
prefixed by "Job Interrupted: ", then committed.  No other field is touched
and no file is removed. -/
def failDb (db : Db) (msg : String) : Db :=
  ⟨{ db.transcript with status := .failed
                        errorMessage := some ("Job Interrupted: " ++ msg) },
   db.segments⟩

/-- An attempt ending in a caught exception: the failure handler commit is
appended to the trace. -/
def failRun (db : Db) (evs : List Event) (msg : String) : RunResult :=
  { db := failDb db msg
    events := evs ++ [.commitT (failDb db msg).transcript]
    exit := .failedExit msg }

/-- Message of the TypeError raised when last_processed_chunk is NULL and
compared against an integer. -/
def lpcNullMsg : String := "unsupported comparison of NoneType and int"

/-- The transcript row as committed right after splitting: status
PROCESSING, started_at recorded, total_chunks set to the number of produced
chunks. -/
def splitCommit (env : Env) (db0 : Db) (n : Nat) : Transcript :=
  { db0.transcript with status := .processing, startedAt := some env.now,
                        totalChunks := some n }

/-- The transcript row as committed on normal completion: full_text is the
space-joined text buffer, duration_seconds the end of the last processed
chunk, status COMPLETED, completed_at recorded and error_message cleared. -/
def finalizeT (env : Env) (st : LoopSt) : Transcript :=
  { st.committed.transcript with
      fullText := some (String.intercalate " " st.acc)
      durationSeconds := some st.totalDur
      status := .completed
      completedAt := some env.finishedAt
      errorMessage := none }

/-- process_transcription_job (main.py lines 64-245), one processing attempt
for one job.  The media file is checked, the source is split by a call of
split_audio (unconditionally, whatever the checkpoint says), status
PROCESSING, started_at and total_chunks are committed, previously persisted
segment texts are preloaded in start_time order when resuming, the per-chunk
loop runs, and on normal completion full_text is built from the text buffer,
duration_seconds, COMPLETED, completed_at are set, error_message cleared,
the session committed, and the chunk directory deleted.  Any exception is
converted by handle_job_failure into a committed FAILED state. -/
def processJob (job : TranscriptionJob) (env : Env) (db0 : Db) : RunResult :=
  if env.mediaExists = false then
    failRun db0 [] ("Media file not found: " ++ job.filePath)
  else
    match env.split with
    | .error e => failRun db0 [.splitCalled] e
    | .ok durs =>
      let chunks := splitChunks 60 durs
      let t1 := splitCommit env db0 chunks.length
      let db1 : Db := ⟨t1, db0.segments⟩
      let ev1 : List Event := [.splitCalled, .commitT t1]
      match t1.lastProcessedChunk with
      | none => failRun db1 ev1 lpcNullMsg
      | some k =>
        let acc0 := if 0 < k then (sortByStart db0.segments).map (fun s => s.text) else []
        let r := go env chunks.length k chunks
          { committed := db1, acc := acc0, lang := job.language
            totalDur := 0, events := ev1 }
        match r.2 with
        | .done =>
          { db := ⟨finalizeT env r.1, r.1.committed.segments⟩
            events := r.1.events ++ [.commitT (finalizeT env r.1), .cleanup]
            exit := .finished }
        | .flagCancel =>
          { db := r.1.committed, events := r.1.events, exit := .flagCancel }
        | .dbCancel =>
          { db := r.1.committed, events := r.1.events, exit := .dbCancel }
        | .engineErr e => failRun r.1.committed r.1.events e

/-- The loop state at entry of the per-chunk loop: the post-split commit,
the preloaded text buffer (start_time ordered texts of the already persisted
segments when resuming), the caller language, zero running duration, and the
trace of the split call and the first commit. -/
def initSt (job : TranscriptionJob) (env : Env) (db0 : Db) (durs : List ℚ)
    (k : Nat) : LoopSt :=
  { committed := ⟨splitCommit env db0 (splitChunks 60 durs).length, db0.segments⟩
    acc := if 0 < k then (sortByStart db0.segments).map (fun s => s.text) else []
    lang := job.language
    totalDur := 0
    events := [.splitCalled, .commitT (splitCommit env db0 (splitChunks 60 durs).length)] }

/-- The per-chunk loop run of a main-path attempt, from the post-split
state. -/
def runLoop (job : TranscriptionJob) (env : Env) (db0 : Db) (durs : List ℚ)
    (k : Nat) : LoopSt × LoopExit :=
  go env (splitChunks 60 durs).length k (splitChunks 60 durs)
    (initSt job env db0 durs k)

/-- The checkpoint values carried by the commits of a trace: for each
committed transcript row, its last_processed_chunk (0 when NULL) and
total_chunks. -/
def commitLpcs (evs : List Event) : List (Nat × Option Nat) :=
  evs.filterMap (fun e =>
    match e with
    | .commitT t => some (t.lastProcessedChunk.getD 0, t.totalChunks)
    | _ => none)

/-- The transcript mutation performed by the cancel endpoint: status FAILED
(not CANCELED) and error message "Canceled by user". -/
def canceledWrite (t : Transcript) : Transcript :=
  { t with status := .failed, errorMessage := some "Canceled by user" }

/-- cancel_transcription (routers/transcript.py lines 282-306), the database
side: a PENDING or PROCESSING transcript is marked FAILED with error message
"Canceled by user" and committed (the queue flag is set separately via
cancel_job); any other status is a conflict. -/
def cancelTranscription (t : Transcript) : Except String Transcript :=
  if t.status = .pending ∨ t.status = .processing then .ok (canceledWrite t)
  else .error "Cannot cancel transcript in this state"

/-- The durable state after the cancel endpoint ran against it (identity when
the endpoint rejected the request). -/
def cancelEndpointApply (db : Db) : Db :=
  match cancelTranscription db.transcript with
  | .ok t => ⟨t, db.segments⟩
  | .error _ => db

/-- Outcome of the start_transcription endpoint for the claims verified
here: a 409 conflict, or the transcript row as committed before enqueueing
together with the segments that remain persisted. -/
inductive StartOutcome where
  | conflict
  | started (t : Transcript) (segs : List Segment)
  deriving DecidableEq, Repr

/-- The reference time of the staleness check: started_at when set (Python
or-chain truthiness), else created_at. -/
def checkTime (t : Transcript) : ℚ :=
  t.startedAt.getD t.createdAt

/-- The staleness predicate of start_transcription: the record was started
(or created) more than 30 seconds before now. -/
def isStale (t : Transcript) (now : ℚ) : Bool :=
  decide (30 < now - checkTime t)

/-- The transcript row committed by start_transcription on a fresh start
(last_processed_chunk 0 or NULL): status PENDING, error cleared, full text,
checkpoint and total reset. -/
def resetFresh (t : Transcript) : Transcript :=
  { t with status := .pending, errorMessage := none, fullText := none,
           lastProcessedChunk := some 0, totalChunks := none }

/-- The transcript row committed by start_transcription on a resume
(nonzero checkpoint): only status and error_message change. -/
def resetResume (t : Transcript) : Transcript :=
  { t with status := .pending, errorMessage := none }

/-- start_transcription (routers/transcript.py lines 153-215), restricted to
the branch where the media file exists on disk.  existing is the transcript
row found for the media (none when a fresh row is created), segs its
persisted segments, now the wall clock.  A PENDING or PROCESSING row that is
not stale is a conflict; otherwise the row is reset to PENDING with the
error cleared, and when last_processed_chunk is 0 or NULL the full text,
checkpoint and total are reset and all prior segments deleted, while a
nonzero checkpoint keeps the segments for resume. -/
def startTranscription (existing : Option Transcript) (segs : List Segment)
    (now : ℚ) : StartOutcome :=
  match existing with
  | none =>
    .started { status := .pending, fullText := none, durationSeconds := none,
               estimatedSeconds := none, errorMessage := none,
               lastProcessedChunk := some 0, totalChunks := none,
               startedAt := none, createdAt := now, completedAt := none } []
  | some t =>
    if (t.status = .pending ∨ t.status = .processing) ∧ isStale t now = false then
      .conflict
    else
      if t.lastProcessedChunk = some 0 ∨ t.lastProcessedChunk = none then
        .started (resetFresh t) []
      else .started (resetResume t) segs

/-- Wellformedness of the raw engine output for one chunk: the segments are
strictly ordered by start and their local timestamps fall inside the 60
second chunk window. -/
def RawWF (raw : List RawSeg) : Prop :=
  List.Pairwise (fun a b => a.start < b.start) raw ∧
  ∀ s ∈ raw, 0 ≤ s.start ∧ s.start < 60

instance : IsTotal Segment segLE := ⟨fun a b => le_total a.startTime b.startTime⟩

instance : IsTrans Segment segLE := ⟨fun _ _ _ h1 h2 => le_trans h1 h2⟩

instance : IsAntisymm Segment segLT :=
  ⟨fun _ _ h1 h2 => absurd (lt_trans h1 h2) (lt_irrefl _)⟩

/-- A concrete FAILED transcript with a fresh (zero) checkpoint, for
witnesses.  Fields in order: status, full_text, duration_seconds,
estimated_seconds, error_message, last_processed_chunk, total_chunks,
started_at, created_at, completed_at. -/
def tFreshEx : Transcript := ⟨.failed, none, none, none, some "e", some 0, none, none, 0, none⟩

/-- A concrete PROCESSING transcript started at time 0 with no progress, for
the staleness witness. -/
def tStaleEx : Transcript := ⟨.processing, none, none, none, none, some 0, none, some 0, 0, none⟩

/-- A concrete job record shared by the orchestrator scenarios. -/
def jobEx : TranscriptionJob := ⟨1, "media.mp4", none⟩

/-- Resumed durable state for the resplit scenario: a FAILED transcript with
checkpoint 2 of 3 and two already persisted segments. -/
def dbC1 : Db :=
  ⟨⟨.failed, none, none, none, some "prev", some 2, some 3, none, 0, none⟩,
   [⟨0, 2, "a"⟩, ⟨65, 66, "b"⟩]⟩

/-- Environment of the resplit scenario: media present, the splitter
producing three chunk files, the engine succeeding, nobody cancelling. -/
def envC1 : Env :=
  { mediaExists := true
    split := .ok [60, 60, 30]
    engine := fun _ => .ok ([⟨0, 2, "x"⟩], "en")
    qCancel := fun _ => false
    statusCheck1 := fun _ => .processing
    statusCheck2 := fun _ => .processing
    now := 0
    finishedAt := 0
    elapsedAt := fun _ => 0 }

/-- Fresh durable state for the cancellation scenario. -/
def dbC2 : Db :=
  ⟨⟨.pending, none, none, none, none, some 0, none, none, 0, none⟩, []⟩

/-- Environment of the cancellation scenario: the in-memory cancellation
flag becomes visible from the loop iteration of chunk 1 on (the cancel
endpoint runs while chunk 0 is being transcribed). -/
def envC2 : Env :=
  { mediaExists := true
    split := .ok [60, 60, 30]
    engine := fun _ => .ok ([⟨0, 2, "x"⟩], "en")
    qCancel := fun i => Nat.ble 1 i
    statusCheck1 := fun _ => .processing
    statusCheck2 := fun _ => .processing
    now := 0
    finishedAt := 0
    elapsedAt := fun _ => 0 }

/-- Environment of the late-cancellation scenario: the cancel endpoint runs
while the single (hence final) chunk is inside the inference call, so the
in-memory flag is never observed by a later iteration; the post-inference
refresh sees the endpoint write FAILED, which is not the CANCELED the check
tests for. -/
def envC2b : Env :=
  { mediaExists := true
    split := .ok [60]
    engine := fun _ => .ok ([⟨0, 2, "x"⟩], "en")
    qCancel := fun _ => false
    statusCheck1 := fun _ => .processing
    statusCheck2 := fun _ => .failed
    now := 0
    finishedAt := 0
    elapsedAt := fun _ => 0 }

/-- Durable state with checkpoint 1 for the failure-message scenario. -/
def dbC5a : Db :=
  ⟨⟨.failed, none, none, none, none, some 1, some 4, none, 0, none⟩, []⟩

/-- Durable state with checkpoint 3 for the failure-message scenario. -/
def dbC5b : Db :=
  ⟨⟨.failed, none, none, none, none, some 3, some 4, none, 0, none⟩, []⟩

/-- Environment of the failure-message scenario: the inference call raises
"boom" on every chunk. -/
def envC5 : Env :=
  { mediaExists := true
    split := .ok [60, 60, 60, 60]
    engine := fun _ => .error "boom"
    qCancel := fun _ => false
    statusCheck1 := fun _ => .processing
    statusCheck2 := fun _ => .processing
    now := 0
    finishedAt := 0
    elapsedAt := fun _ => 0 }

/-- Claim C6: a job whose id is in the cancellation set at dequeue time is
skipped without invoking the processor, the failure callback is invoked with
the cancelled-before-processing signal, the flag is cleared and the loop
continues; a job that is not pre-cancelled has the processor invoked, any
processor exception is caught (the loop keeps running) and the flag is
cleared afterwards in every case. -/
theorem claim6_worker_loop (st : QueueState) (job : TranscriptionJob)
    (proc : ProcOutcome) :
    (job.mediaId ∈ st.cancelled →
      (workerStep true st (some job) proc).events =
        [.failureCallback job.mediaId "Cancelled before processing"] ∧
      (∀ i, WorkerEvent.processorCalled i ∉ (workerStep true st (some job) proc).events) ∧
      job.mediaId ∉ (workerStep true st (some job) proc).state.cancelled ∧
      (workerStep true st (some job) proc).stopped = false) ∧
    (job.mediaId ∉ st.cancelled →
      (workerStep true st (some job) proc).events = [.processorCalled job.mediaId] ∧
      job.mediaId ∉ (workerStep true st (some job) proc).state.cancelled ∧
      (workerStep true st (some job) proc).stopped = false) := by
  constructor
  · intro hmem
    simp [workerStep, hmem, clearCancelled, List.mem_filter]
  · intro hmem
    cases proc <;> simp [workerStep, hmem, clearCancelled, List.mem_filter]

/-- Witness for claim C6 at a concrete pre-cancelled job. -/
theorem claim6_worker_loop_witness :
    (workerStep true ⟨[7]⟩ (some ⟨7, "f", none⟩) .ok).events =
      [.failureCallback 7 "Cancelled before processing"] ∧
    7 ∉ (workerStep true ⟨[7]⟩ (some ⟨7, "f", none⟩) .ok).state.cancelled := by
  have h := (claim6_worker_loop ⟨[7]⟩ ⟨7, "f", none⟩ .ok).1 (by decide)
  exact ⟨h.1, h.2.2.1⟩

/-- Claim C7: when transcription is started for an existing transcript whose
checkpoint is 0 or NULL, all prior segments are deleted and full_text,
checkpoint and total_chunks are reset; a nonzero checkpoint keeps the
persisted segments. -/
theorem claim7_fresh_start_resets (t : Transcript) (segs : List Segment) (now : ℚ)
    (hnc : startTranscription (some t) segs now ≠ .conflict) :
    ((t.lastProcessedChunk = some 0 ∨ t.lastProcessedChunk = none) →
      startTranscription (some t) segs now = .started (resetFresh t) []) ∧
    (∀ m, t.lastProcessedChunk = some (m + 1) →
      startTranscription (some t) segs now = .started (resetResume t) segs) := by
  by_cases hcond :
      (t.status = .pending ∨ t.status = .processing) ∧ isStale t now = false
  · exact absurd (by simp [startTranscription, if_pos hcond]) hnc
  · constructor
    · intro h0
      simp only [startTranscription, if_neg hcond, if_pos h0]
    · intro m hm
      have hm' : ¬ (t.lastProcessedChunk = some 0 ∨ t.lastProcessedChunk = none) := by
        simp only [hm]
        simp
      simp only [startTranscription, if_neg hcond, if_neg hm']

/-- Witness for claim C7 at a concrete FAILED job with a zero checkpoint:
the prior segment list is dropped. -/
theorem claim7_fresh_start_resets_witness :
    startTranscription (some tFreshEx) [⟨1, 2, "x"⟩] 100 =
      .started (resetFresh tFreshEx) [] := by
  refine (claim7_fresh_start_resets tFreshEx [⟨1, 2, "x"⟩] 100 ?_).1 (Or.inl rfl)
  simp [startTranscription, tFreshEx]

/-- Claim C9: the start-transcription action rejects with a conflict only
when the record is PENDING or PROCESSING and not stale; a stale PROCESSING
record is treated as resumable, and FAILED or CANCELED records are always
resumable. -/
theorem claim9_conflict_only_when_active (t : Transcript) (segs : List Segment)
    (now : ℚ) :
    (startTranscription (some t) segs now = .conflict →
      (t.status = .pending ∨ t.status = .processing) ∧ isStale t now = false) ∧
    (t.status = .processing → isStale t now = true →
      startTranscription (some t) segs now ≠ .conflict) ∧
    ((t.status = .failed ∨ t.status = .canceled) →
      startTranscription (some t) segs now ≠ .conflict) := by
  by_cases hcond :
      (t.status = .pending ∨ t.status = .processing) ∧ isStale t now = false
  · refine ⟨fun _ => hcond, ?_, ?_⟩
    · intro _ hstale
      rw [hcond.2] at hstale
      exact absurd hstale (by decide)
    · intro hfc
      rcases hcond.1 with h | h <;> rcases hfc with h2 | h2 <;>
        rw [h] at h2 <;> exact absurd h2 (by decide)
  · have hne : startTranscription (some t) segs now ≠ .conflict := by
      simp only [startTranscription, if_neg hcond]
      by_cases h0 : t.lastProcessedChunk = some 0 ∨ t.lastProcessedChunk = none
      · rw [if_pos h0]
        exact fun h => by cases h
      · rw [if_neg h0]
        exact fun h => by cases h
    exact ⟨fun h => absurd h hne, fun _ _ => hne, fun _ => hne⟩

/-- Witness for claim C9: a stale PROCESSING record (started 31 seconds
before the request with no progress) is not rejected. -/
theorem claim9_conflict_only_when_active_witness :
    startTranscription (some tStaleEx) [] 31 ≠ .conflict := by
  refine (claim9_conflict_only_when_active tStaleEx [] 31).2.1 rfl ?_
  simp only [isStale, checkTime, tStaleEx, Option.getD]
  norm_num

/-- Claim C8: transcribe_chunk fails with the not-found error when the chunk
file is missing; otherwise it returns the engine segments with time_offset
added to every start and end timestamp together with the detected language,
and the output order follows the engine order (an ordered engine output
yields an ordered result). -/
theorem claim8_transcribe_chunk (st : ManagerState) (lo : Bool)
    (raw : List RawSeg) (detLang : String) (off : ℚ)
    (hload : (loadModel st lo).2 = true) :
    (transcribeChunkSt st lo false raw detLang off).2 =
      .error (.notFound chunkNotFoundMsg) ∧
    (transcribeChunkSt st lo true raw detLang off).2 =
      .ok (shiftSegs off raw, detLang) ∧
    (shiftSegs off raw).length = raw.length ∧
    (∀ i : Nat, (shiftSegs off raw)[i]?.map (fun s : Segment => s.startTime) =
        raw[i]?.map (fun s : RawSeg => s.start + off)) ∧
    (∀ i : Nat, (shiftSegs off raw)[i]?.map (fun s : Segment => s.endTime) =
        raw[i]?.map (fun s : RawSeg => s.stop + off)) ∧
    (List.Pairwise (fun a b : RawSeg => a.start ≤ b.start) raw →
      List.Pairwise segLE (shiftSegs off raw)) := by
  obtain ⟨st2, hst2⟩ : ∃ st2, loadModel st lo = (st2, true) :=
    ⟨(loadModel st lo).1, by rw [← hload]⟩
  refine ⟨?_, ?_, ?_, ?_, ?_, ?_⟩
  · simp [transcribeChunkSt, hst2]
  · simp [transcribeChunkSt, hst2]
  · simp [shiftSegs]
  · intro i
    simp only [shiftSegs, List.getElem?_map, Option.map_map]
    cases raw[i]? <;> rfl
  · intro i
    simp only [shiftSegs, List.getElem?_map, Option.map_map]
    cases raw[i]? <;> rfl
  · intro hord
    refine List.Pairwise.map _ ?_ hord
    intro a b hab
    simpa [segLE] using add_le_add_right hab off

/-- Witness for claim C8 at a concrete two-segment engine result. -/
theorem claim8_transcribe_chunk_witness :
    (transcribeChunkSt ⟨"base", some "base"⟩ true false
      [⟨0, 2, "a"⟩, ⟨3, 5, "b"⟩] "en" 60).2 =
      .error (.notFound chunkNotFoundMsg) ∧
    (transcribeChunkSt ⟨"base", some "base"⟩ true true
      [⟨0, 2, "a"⟩, ⟨3, 5, "b"⟩] "en" 60).2 =
      .ok ([⟨60, 62, "a"⟩, ⟨63, 65, "b"⟩], "en") := by
  have h := claim8_transcribe_chunk ⟨"base", some "base"⟩ true
    [⟨0, 2, "a"⟩, ⟨3, 5, "b"⟩] "en" 60 rfl
  refine ⟨h.1, ?_⟩
  rw [h.2.1]
  norm_num [shiftSegs]
  exact ⟨by decide, by decide⟩

/-- Claim C10: reload_model with a different model name discards the current
instance and switches the stored name before attempting the load, so a
failing load leaves the engine with no loaded model (the previous one is not
restored), and the next transcribe call retries loading the new model. -/
theorem claim10_reload_not_atomic (st : ManagerState) (newName : String)
    (raw : List RawSeg) (detLang : String) (off : ℚ)
    (hdiff : st.modelName ≠ newName) :
    (reloadModel st newName false).1 = ⟨newName, none⟩ ∧
    (reloadModel st newName false).2 = false ∧
    (transcribeChunkSt (reloadModel st newName false).1 true true raw detLang off).1 =
      ⟨newName, some newName⟩ := by
  have hcond : ¬ (st.modelName = newName ∧ st.model.isSome) := by
    intro h
    exact hdiff h.1
  have h1 : reloadModel st newName false = (⟨newName, none⟩, false) := by
    simp [reloadModel, if_neg hcond, loadModel]
  refine ⟨by rw [h1], by rw [h1], ?_⟩
  rw [h1]
  simp [transcribeChunkSt, loadModel]

/-- Shape of the per-chunk loop effects: events are only appended, and the
appended events never contain a splitter call or a segment bulk delete; the
inference engine is only invoked for chunk indices at or above the resume
point; segments are only appended; status and error_message of the
committed transcript are never changed by the loop; and the chunk directory
is only deleted on the dbCancel exit. -/
theorem go_shape (env : Env) (total k : Nat) (chunks : List ChunkInfo)
    (st : LoopSt) :
    ∃ Δ tail,
      (go env total k chunks st).1.events = st.events ++ Δ ∧
      (go env total k chunks st).1.committed.segments =
        st.committed.segments ++ tail ∧
      (go env total k chunks st).1.committed.transcript.status =
        st.committed.transcript.status ∧
      (go env total k chunks st).1.committed.transcript.errorMessage =
        st.committed.transcript.errorMessage ∧
      (∀ e ∈ Δ, e ≠ Event.listExistingCalled ∧ e ≠ Event.segmentsDeleted ∧
        e ≠ Event.splitCalled) ∧
      (∀ i, Event.transcribeCalled i ∈ Δ → k ≤ i) ∧
      ((go env total k chunks st).2 ≠ LoopExit.dbCancel → Event.cleanup ∉ Δ) := by
  induction chunks generalizing st with
  | nil =>
    refine ⟨[], [], ?_, ?_, rfl, rfl, ?_, ?_, ?_⟩ <;> simp [go]
  | cons c rest ih =>
    by_cases hq : env.qCancel c.index
    · refine ⟨[], [], ?_, ?_, ?_, ?_, ?_, ?_, ?_⟩ <;> simp [go, hq]
    · by_cases hk : c.index < k
      · obtain ⟨Δ, tail, h1, h2, h3, h4, h5, h6, h7⟩ := ih st
        have hrw : go env total k (c :: rest) st = go env total k rest st := by
          simp [go, hq, hk]
        rw [hrw]
        exact ⟨Δ, tail, h1, h2, h3, h4, h5, h6, h7⟩
      · by_cases hs1 : env.statusCheck1 c.index = .canceled
        · refine ⟨[.cleanup], [], ?_, ?_, ?_, ?_, ?_, ?_, ?_⟩ <;>
            simp [go, hq, hk, hs1]
        · cases heng : env.engine c.index with
          | error e =>
            refine ⟨[.transcribeCalled c.index], [], ?_, ?_, ?_, ?_, ?_, ?_, ?_⟩ <;>
              simp [go, hq, hk, hs1, heng, Nat.le_of_not_lt hk]
          | ok pr =>
            by_cases hs2 : env.statusCheck2 c.index = .canceled
            · refine ⟨[.transcribeCalled c.index, .cleanup], [], ?_, ?_, ?_, ?_,
                ?_, ?_, ?_⟩ <;>
                simp [go, hq, hk, hs1, heng, hs2, Nat.le_of_not_lt hk]
            · obtain ⟨Δ, tail, h1, h2, h3, h4, h5, h6, h7⟩ :=
                ih (stepState env total c pr.1 pr.2 st)
              have hrw : go env total k (c :: rest) st =
                  go env total k rest (stepState env total c pr.1 pr.2 st) := by
                simp [go, hq, hk, hs1, heng, hs2]
              rw [hrw]
              refine ⟨[.transcribeCalled c.index,
                  .commitT (stepTranscript env total c st.committed.transcript)] ++ Δ,
                shiftSegs c.startTime pr.1 ++ tail, ?_, ?_, ?_, ?_, ?_, ?_, ?_⟩
              · rw [h1]
                simp [stepState]
              · rw [h2]
                simp [stepState]
              · rw [h3]
                simp [stepState, stepTranscript]
              · rw [h4]
                simp [stepState, stepTranscript]
              · intro e he
                rcases List.mem_append.mp he with he2 | he2
                · simp only [List.mem_cons, List.not_mem_nil, or_false] at he2
                  rcases he2 with h | h <;> subst h <;>
                    exact ⟨by simp, by simp, by simp⟩
                · exact h5 e he2
              · intro i hi
                rcases List.mem_append.mp hi with hi2 | hi2
                · simp only [List.mem_cons, List.not_mem_nil, or_false] at hi2
                  rcases hi2 with h | h
                  · cases h
                    exact Nat.le_of_not_lt hk
                  · simp at h
                · exact h6 i hi2
              · intro hex
                rw [List.mem_append]
                push_neg
                refine ⟨?_, h7 hex⟩
                intro hcl
                simp at hcl

/-- On the main path (media present, split succeeded, checkpoint non NULL)
a processing attempt is the per-chunk loop run from the post-split state,
finished according to its exit kind. -/
theorem processJob_eq_main (job : TranscriptionJob) (env : Env) (db0 : Db)
    (durs : List ℚ) (k : Nat)
    (hm : env.mediaExists = true) (hsp : env.split = .ok durs)
    (hk : db0.transcript.lastProcessedChunk = some k) :
    processJob job env db0 =
      match (runLoop job env db0 durs k).2 with
      | .done =>
        { db := ⟨finalizeT env (runLoop job env db0 durs k).1,
            (runLoop job env db0 durs k).1.committed.segments⟩
          events := (runLoop job env db0 durs k).1.events ++
            [.commitT (finalizeT env (runLoop job env db0 durs k).1), .cleanup]
          exit := .finished }
      | .flagCancel =>
        { db := (runLoop job env db0 durs k).1.committed
          events := (runLoop job env db0 durs k).1.events
          exit := .flagCancel }
      | .dbCancel =>
        { db := (runLoop job env db0 durs k).1.committed
          events := (runLoop job env db0 durs k).1.events
          exit := .dbCancel }
      | .engineErr e =>
        failRun (runLoop job env db0 durs k).1.committed
          (runLoop job env db0 durs k).1.events e := by
  have hk1 : (splitCommit env db0 (splitChunks 60 durs).length).lastProcessedChunk =
      some k := hk
  simp only [processJob, hm, hsp, hk1, runLoop, initSt, Bool.true_eq_false,
    if_false]

/-- Effect-trace facts of every main-path attempt: the splitter is invoked
through split_audio (never through the list-existing operation), no bulk
segment delete happens, chunks below the checkpoint are never transcribed,
persisted segments are only appended to, a flag-cancelled attempt leaves the
chunk files alone with the committed status still PROCESSING, and a failed
attempt leaves the chunk files alone with status FAILED and the prefixed
exception text. -/
theorem processJob_shape (job : TranscriptionJob) (env : Env) (db0 : Db)
    (durs : List ℚ) (k : Nat)
    (hm : env.mediaExists = true) (hsp : env.split = .ok durs)
    (hk : db0.transcript.lastProcessedChunk = some k) :
    Event.splitCalled ∈ (processJob job env db0).events ∧
    Event.listExistingCalled ∉ (processJob job env db0).events ∧
    Event.segmentsDeleted ∉ (processJob job env db0).events ∧
    (∀ i, Event.transcribeCalled i ∈ (processJob job env db0).events → k ≤ i) ∧
    (∃ tail, (processJob job env db0).db.segments = db0.segments ++ tail) ∧
    ((processJob job env db0).exit = .flagCancel →
      Event.cleanup ∉ (processJob job env db0).events ∧
      (processJob job env db0).db.transcript.status = .processing) ∧
    (∀ e, (processJob job env db0).exit = .failedExit e →
      Event.cleanup ∉ (processJob job env db0).events ∧
      (processJob job env db0).db.transcript.status = .failed ∧
      (processJob job env db0).db.transcript.errorMessage =
        some ("Job Interrupted: " ++ e)) := by
  rw [processJob_eq_main job env db0 durs k hm hsp hk]
  obtain ⟨Δ, tail, h1, h2, h3, h4, h5, h6, h7⟩ :=
    go_shape env (splitChunks 60 durs).length k (splitChunks 60 durs)
      (initSt job env db0 durs k)
  have hr : runLoop job env db0 durs k =
      go env (splitChunks 60 durs).length k (splitChunks 60 durs)
        (initSt job env db0 durs k) := rfl
  rw [← hr] at h1 h2 h3 h4 h7
  have hin1 : (initSt job env db0 durs k).events =
      [Event.splitCalled,
       Event.commitT (splitCommit env db0 (splitChunks 60 durs).length)] := rfl
  have hin2 : (initSt job env db0 durs k).committed.segments = db0.segments := rfl
  have hin3 : (initSt job env db0 durs k).committed.transcript.status =
      TranscriptionStatus.processing := rfl
  rw [hin1] at h1
  rw [hin2] at h2
  rw [hin3] at h3
  have hE1le : Event.listExistingCalled ∉
      [Event.splitCalled,
       Event.commitT (splitCommit env db0 (splitChunks 60 durs).length)] := by
    simp
  have hE1sd : Event.segmentsDeleted ∉
      [Event.splitCalled,
       Event.commitT (splitCommit env db0 (splitChunks 60 durs).length)] := by
    simp
  have hE1cl : Event.cleanup ∉
      [Event.splitCalled,
       Event.commitT (splitCommit env db0 (splitChunks 60 durs).length)] := by
    simp
  have hΔle : Event.listExistingCalled ∉ Δ := fun hmem => (h5 _ hmem).1 rfl
  have hΔsd : Event.segmentsDeleted ∉ Δ := fun hmem => (h5 _ hmem).2.1 rfl
  have htrE1 : ∀ i, Event.transcribeCalled i ∈
      [Event.splitCalled,
       Event.commitT (splitCommit env db0 (splitChunks 60 durs).length)] →
      k ≤ i := by
    intro i hi
    simp at hi
  cases hex : (runLoop job env db0 durs k).2 with
  | done =>
    refine ⟨?_, ?_, ?_, ?_, ⟨tail, h2⟩, ?_, ?_⟩
    · rw [h1]
      simp
    · rw [h1]
      exact List.not_mem_append (List.not_mem_append hE1le hΔle) (by simp)
    · rw [h1]
      exact List.not_mem_append (List.not_mem_append hE1sd hΔsd) (by simp)
    · intro i hi
      rw [h1] at hi
      rcases List.mem_append.mp hi with hi2 | hi2
      · rcases List.mem_append.mp hi2 with hi3 | hi3
        · exact htrE1 i hi3
        · exact h6 i hi3
      · simp at hi2
    · intro h
      cases h
    · intro e2 h
      cases h
  | flagCancel =>
    have hcl : Event.cleanup ∉ Δ := h7 (by rw [hex]; simp)
    refine ⟨?_, ?_, ?_, ?_, ⟨tail, h2⟩, ?_, ?_⟩
    · rw [h1]
      simp
    · rw [h1]
      exact List.not_mem_append hE1le hΔle
    · rw [h1]
      exact List.not_mem_append hE1sd hΔsd
    · intro i hi
      rw [h1] at hi
      rcases List.mem_append.mp hi with hi2 | hi2
      · exact htrE1 i hi2
      · exact h6 i hi2
    · intro _
      refine ⟨?_, h3⟩
      rw [h1]
      exact List.not_mem_append hE1cl hcl
    · intro e2 h
      cases h
  | dbCancel =>
    refine ⟨?_, ?_, ?_, ?_, ⟨tail, h2⟩, ?_, ?_⟩
    · rw [h1]
      simp
    · rw [h1]
      exact List.not_mem_append hE1le hΔle
    · rw [h1]
      exact List.not_mem_append hE1sd hΔsd
    · intro i hi
      rw [h1] at hi
      rcases List.mem_append.mp hi with hi2 | hi2
      · exact htrE1 i hi2
      · exact h6 i hi2
    · intro h
      cases h
    · intro e2 h
      cases h
  | engineErr e =>
    have hcl : Event.cleanup ∉ Δ := h7 (by rw [hex]; simp)
    refine ⟨?_, ?_, ?_, ?_, ⟨tail, ?_⟩, ?_, ?_⟩
    · simp only [failRun, RunResult.events]
      rw [h1]
      simp
    · simp only [failRun, RunResult.events]
      rw [h1]
      exact List.not_mem_append (List.not_mem_append hE1le hΔle) (by simp)
    · simp only [failRun, RunResult.events]
      rw [h1]
      exact List.not_mem_append (List.not_mem_append hE1sd hΔsd) (by simp)
    · intro i hi
      simp only [failRun, RunResult.events] at hi
      rw [h1] at hi
      rcases List.mem_append.mp hi with hi2 | hi2
      · rcases List.mem_append.mp hi2 with hi3 | hi3
        · exact htrE1 i hi3
        · exact h6 i hi3
      · simp at hi2
    · simp only [failRun, RunResult.db, failDb]
      exact h2
    · intro h
      cases h
    · intro e2 h
      simp only [failRun, RunResult.exit, ExitKind.failedExit.injEq] at h
      subst h
      refine ⟨?_, rfl, rfl⟩
      simp only [failRun, RunResult.events]
      rw [h1]
      exact List.not_mem_append (List.not_mem_append hE1cl hcl) (by simp)
/-- Witness for claim C10 at concrete model names. -/
theorem claim10_reload_not_atomic_witness :
    (reloadModel ⟨"small", some "small"⟩ "large" false).1 = ⟨"large", none⟩ ∧
    (transcribeChunkSt (reloadModel ⟨"small", some "small"⟩ "large" false).1
      true true [] "en" 0).1 = ⟨"large", some "large"⟩ := by
  have h := claim10_reload_not_atomic ⟨"small", some "small"⟩ "large" [] "en" 0
    (by decide)
  exact ⟨h.1, h.2.2⟩

/-- A missing media file ends the attempt through the failure handler before
any splitting. -/
theorem processJob_eq_noMedia (job : TranscriptionJob) (env : Env) (db0 : Db)
    (hm : env.mediaExists = false) :
    processJob job env db0 =
      failRun db0 [] ("Media file not found: " ++ job.filePath) := by
  simp [processJob, hm]

/-- A raising split call ends the attempt through the failure handler. -/
theorem processJob_eq_splitErr (job : TranscriptionJob) (env : Env) (db0 : Db)
    (e : String) (hm : env.mediaExists = true) (hsp : env.split = .error e) :
    processJob job env db0 = failRun db0 [.splitCalled] e := by
  simp [processJob, hm, hsp]

/-- A NULL checkpoint ends the attempt through the failure handler right
after the post-split commit. -/
theorem processJob_eq_lpcNull (job : TranscriptionJob) (env : Env) (db0 : Db)
    (durs : List ℚ) (hm : env.mediaExists = true) (hsp : env.split = .ok durs)
    (hk : db0.transcript.lastProcessedChunk = none) :
    processJob job env db0 =
      failRun ⟨splitCommit env db0 (splitChunks 60 durs).length, db0.segments⟩
        [.splitCalled, .commitT (splitCommit env db0 (splitChunks 60 durs).length)]
        lpcNullMsg := by
  have hk1 : (splitCommit env db0 (splitChunks 60 durs).length).lastProcessedChunk =
      none := hk
  simp [processJob, hm, hsp, hk1]

/-- Claim C1 (counterexample): on a restart with checkpoint 2 the
orchestrator still calls split_audio and never calls the list-existing
operation. -/
theorem claim1_counterexample :
    dbC1.transcript.lastProcessedChunk = some 2 ∧
    Event.splitCalled ∈ (processJob jobEx envC1 dbC1).events ∧
    Event.listExistingCalled ∉ (processJob jobEx envC1 dbC1).events := by
  decide

/-- Claim C1 (amended): whatever the checkpoint value, a (re)started job is
split again through split_audio and the list-existing operation is never
used; but segments are never deleted by the orchestrator, chunks below the
checkpoint are never re-transcribed, and the persisted segments of the job
are preserved as a prefix. -/
theorem claim1_resplit_preserve (job : TranscriptionJob) (env : Env) (db0 : Db)
    (durs : List ℚ) (k : Nat)
    (hm : env.mediaExists = true) (hsp : env.split = .ok durs)
    (hk : db0.transcript.lastProcessedChunk = some k) :
    Event.splitCalled ∈ (processJob job env db0).events ∧
    Event.listExistingCalled ∉ (processJob job env db0).events ∧
    Event.segmentsDeleted ∉ (processJob job env db0).events ∧
    (∀ i, Event.transcribeCalled i ∈ (processJob job env db0).events → k ≤ i) ∧
    (∃ tail, (processJob job env db0).db.segments = db0.segments ++ tail) := by
  obtain ⟨h1, h2, h3, h4, h5, _, _⟩ := processJob_shape job env db0 durs k hm hsp hk
  exact ⟨h1, h2, h3, h4, h5⟩

/-- Witness for the amended claim C1 at the concrete resume scenario. -/
theorem claim1_resplit_preserve_witness :
    Event.splitCalled ∈ (processJob jobEx envC1 dbC1).events ∧
    Event.segmentsDeleted ∉ (processJob jobEx envC1 dbC1).events ∧
    (∃ tail, (processJob jobEx envC1 dbC1).db.segments = dbC1.segments ++ tail) := by
  obtain ⟨h1, _, h3, _, h5⟩ :=
    claim1_resplit_preserve jobEx envC1 dbC1 [60, 60, 30] 2 rfl rfl rfl
  exact ⟨h1, h3, h5⟩

/-- Claim C2 (counterexample): a job cancelled while its chunks are being
processed (the flag observed at the iteration of chunk 1, the endpoint
having committed its write) ends FAILED, not CANCELED; the chunk files are
left on disk. -/
theorem claim2_counterexample :
    (processJob jobEx envC2 dbC2).exit = .flagCancel ∧
    (cancelEndpointApply (processJob jobEx envC2 dbC2).db).transcript.status =
      .failed ∧
    (cancelEndpointApply (processJob jobEx envC2 dbC2).db).transcript.status ≠
      .canceled ∧
    Event.cleanup ∉ (processJob jobEx envC2 dbC2).events := by
  decide

/-- The per-chunk loop can only take the dbCancel exit when a session
refresh reads status CANCELED; when no concurrent writer ever commits
CANCELED (no code in the repository does), that exit is unreachable. -/
theorem go_no_dbCancel (env : Env) (total k : Nat)
    (hs1 : ∀ i, env.statusCheck1 i ≠ .canceled)
    (hs2c : ∀ i, env.statusCheck2 i ≠ .canceled) :
    ∀ (chunks : List ChunkInfo) (st : LoopSt),
    (go env total k chunks st).2 ≠ LoopExit.dbCancel := by
  intro chunks
  induction chunks with
  | nil =>
    intro st
    simp [go]
  | cons c rest ih =>
    intro st
    by_cases hq : env.qCancel c.index
    · simp [go, hq]
    · by_cases hk2 : c.index < k
      · have hgo : go env total k (c :: rest) st = go env total k rest st := by
          simp [go, hq, hk2]
        rw [hgo]
        exact ih st
      · cases heng : env.engine c.index with
        | error e => simp [go, hq, hk2, hs1 c.index, heng]
        | ok pr =>
          have hgo : go env total k (c :: rest) st =
              go env total k rest (stepState env total c pr.1 pr.2 st) := by
            simp [go, hq, hk2, hs1 c.index, heng, hs2c c.index]
          rw [hgo]
          exact ih _

/-- The cancel endpoint never produces status CANCELED: it either writes
FAILED or rejects the request and leaves the status alone. -/
theorem cancelEndpointApply_status (db : Db)
    (h : db.transcript.status ≠ .canceled) :
    (cancelEndpointApply db).transcript.status ≠ .canceled := by
  by_cases hc : db.transcript.status = .pending ∨ db.transcript.status = .processing
  · simp [cancelEndpointApply, cancelTranscription, hc, canceledWrite]
  · simpa [cancelEndpointApply, cancelTranscription, hc] using h

/-- Claim C2 (amended): when nothing ever commits status CANCELED (no code
in the repository does), a main-path attempt never takes the status-based
cancellation exit and the durable record never ends CANCELED, with or
without the cancel endpoint write.  A cancel that the in-memory flag check
observes before some remaining chunk stops the attempt with the chunk files
intact, its last committed status PROCESSING, so the durable record keeps
the endpoint write: FAILED with message "Canceled by user" and untouched
segments.  But a cancel that is never observed — one landing during the
final chunk, after its flag check — lets the attempt finish: status
COMPLETED, error_message cleared, and the chunk files deleted. -/
theorem claim2_cancel_outcomes (job : TranscriptionJob) (env : Env)
    (db0 : Db) (durs : List ℚ) (k : Nat)
    (hm : env.mediaExists = true) (hsp : env.split = .ok durs)
    (hk : db0.transcript.lastProcessedChunk = some k)
    (hs1 : ∀ i, env.statusCheck1 i ≠ .canceled)
    (hs2c : ∀ i, env.statusCheck2 i ≠ .canceled) :
    (processJob job env db0).exit ≠ .dbCancel ∧
    (processJob job env db0).db.transcript.status ≠ .canceled ∧
    (cancelEndpointApply (processJob job env db0).db).transcript.status ≠
      .canceled ∧
    ((processJob job env db0).exit = .flagCancel →
      Event.cleanup ∉ (processJob job env db0).events ∧
      (processJob job env db0).db.transcript.status = .processing ∧
      (cancelEndpointApply (processJob job env db0).db).transcript.status =
        .failed ∧
      (cancelEndpointApply (processJob job env db0).db).transcript.errorMessage =
        some "Canceled by user" ∧
      (cancelEndpointApply (processJob job env db0).db).segments =
        (processJob job env db0).db.segments) ∧
    ((processJob job env db0).exit = .finished →
      (processJob job env db0).db.transcript.status = .completed ∧
      (processJob job env db0).db.transcript.errorMessage = none ∧
      Event.cleanup ∈ (processJob job env db0).events) := by
  obtain ⟨_, _, _, _, _, s6, s7⟩ := processJob_shape job env db0 durs k hm hsp hk
  have heq := processJob_eq_main job env db0 durs k hm hsp hk
  have hndr : (runLoop job env db0 durs k).2 ≠ LoopExit.dbCancel :=
    go_no_dbCancel env (splitChunks 60 durs).length k hs1 hs2c
      (splitChunks 60 durs) (initSt job env db0 durs k)
  cases hex : (runLoop job env db0 durs k).2 with
  | dbCancel => exact absurd hex hndr
  | done =>
    have hexit : (processJob job env db0).exit = .finished := by
      rw [heq]
      simp [hex]
    have hstat : (processJob job env db0).db.transcript.status = .completed := by
      rw [heq]
      simp [hex, finalizeT]
    have herr : (processJob job env db0).db.transcript.errorMessage = none := by
      rw [heq]
      simp [hex, finalizeT]
    have hclm : Event.cleanup ∈ (processJob job env db0).events := by
      rw [heq]
      simp [hex]
    refine ⟨?_, ?_, ?_, ?_, fun _ => ⟨hstat, herr, hclm⟩⟩
    · rw [hexit]
      simp
    · rw [hstat]
      simp
    · exact cancelEndpointApply_status _ (by rw [hstat]; simp)
    · intro h
      rw [hexit] at h
      simp at h
  | flagCancel =>
    have hexit : (processJob job env db0).exit = .flagCancel := by
      rw [heq]
      simp [hex]
    obtain ⟨hcl, hst⟩ := s6 hexit
    have hcancel : cancelTranscription (processJob job env db0).db.transcript =
        .ok (canceledWrite (processJob job env db0).db.transcript) := by
      simp [cancelTranscription, hst]
    refine ⟨?_, ?_, ?_, fun _ => ⟨hcl, hst, ?_, ?_, ?_⟩, ?_⟩
    · rw [hexit]
      simp
    · rw [hst]
      simp
    · exact cancelEndpointApply_status _ (by rw [hst]; simp)
    · simp [cancelEndpointApply, hcancel, canceledWrite]
    · simp [cancelEndpointApply, hcancel, canceledWrite]
    · simp [cancelEndpointApply, hcancel]
    · intro h
      rw [hexit] at h
      simp at h
  | engineErr e =>
    have hexit : (processJob job env db0).exit = .failedExit e := by
      rw [heq]
      simp [hex, failRun]
    obtain ⟨hcl, hst, herr⟩ := s7 e hexit
    refine ⟨?_, ?_, ?_, ?_, ?_⟩
    · rw [hexit]
      simp
    · rw [hst]
      simp
    · exact cancelEndpointApply_status _ (by rw [hst]; simp)
    · intro h
      rw [hexit] at h
      simp at h
    · intro h
      rw [hexit] at h
      simp at h

/-- Witness for the amended claim C2 at two concrete scenarios: the flag
observed before chunk 1 (files intact, endpoint FAILED write standing), and
the cancel landing during the single final chunk (run completes and the
chunk files are deleted). -/
theorem claim2_cancel_outcomes_witness :
    Event.cleanup ∉ (processJob jobEx envC2 dbC2).events ∧
    (cancelEndpointApply (processJob jobEx envC2 dbC2).db).transcript.status =
      .failed ∧
    (processJob jobEx envC2b dbC2).db.transcript.status = .completed ∧
    Event.cleanup ∈ (processJob jobEx envC2b dbC2).events := by
  have ha := claim2_cancel_outcomes jobEx envC2 dbC2 [60, 60, 30] 0 rfl rfl rfl
    (fun i => by simp [envC2]) (fun i => by simp [envC2])
  have hb := claim2_cancel_outcomes jobEx envC2b dbC2 [60] 0 rfl rfl rfl
    (fun i => by simp [envC2b]) (fun i => by simp [envC2b])
  obtain ⟨-, -, -, hfa, -⟩ := ha
  obtain ⟨h1, -, h3, -, -⟩ := hfa (by decide)
  obtain ⟨-, -, -, -, hfb⟩ := hb
  obtain ⟨h4, -, h5⟩ := hfb (by decide)
  exact ⟨h1, h3, h4, h5⟩

/-- Claim C5 (counterexample): two failing attempts whose last known
progress differs (checkpoint 1 versus checkpoint 3 of 4) produce the same
error message, so the message cannot include the progress. -/
theorem claim5_counterexample :
    dbC5a.transcript.lastProcessedChunk ≠ dbC5b.transcript.lastProcessedChunk ∧
    (processJob jobEx envC5 dbC5a).exit = .failedExit "boom" ∧
    (processJob jobEx envC5 dbC5b).exit = .failedExit "boom" ∧
    (processJob jobEx envC5 dbC5a).db.transcript.lastProcessedChunk ≠
      (processJob jobEx envC5 dbC5b).db.transcript.lastProcessedChunk ∧
    (processJob jobEx envC5 dbC5a).db.transcript.errorMessage =
      (processJob jobEx envC5 dbC5b).db.transcript.errorMessage := by
  decide

/-- Claim C5 (amended): any uncaught exception ends the attempt with status
FAILED and error_message equal to the exception text prefixed by
"Job Interrupted: " (the last known progress is not part of the message),
and neither the chunk files nor the persisted segments are deleted. -/
theorem claim5_failure_state (job : TranscriptionJob) (env : Env) (db0 : Db)
    (e : String) (hexit : (processJob job env db0).exit = .failedExit e) :
    (processJob job env db0).db.transcript.status = .failed ∧
    (processJob job env db0).db.transcript.errorMessage =
      some ("Job Interrupted: " ++ e) ∧
    Event.cleanup ∉ (processJob job env db0).events ∧
    Event.segmentsDeleted ∉ (processJob job env db0).events := by
  cases hmb : env.mediaExists with
  | false =>
    rw [processJob_eq_noMedia job env db0 hmb] at hexit ⊢
    have he : e = "Media file not found: " ++ job.filePath := by
      simp only [failRun, RunResult.exit, ExitKind.failedExit.injEq] at hexit
      exact hexit.symm
    subst he
    refine ⟨rfl, rfl, ?_, ?_⟩ <;> simp [failRun]
  | true =>
    cases hsp : env.split with
    | error e2 =>
      rw [processJob_eq_splitErr job env db0 e2 hmb hsp] at hexit ⊢
      have he : e = e2 := by
        simp only [failRun, RunResult.exit, ExitKind.failedExit.injEq] at hexit
        exact hexit.symm
      subst he
      refine ⟨rfl, rfl, ?_, ?_⟩ <;> simp [failRun]
    | ok durs =>
      cases hk : db0.transcript.lastProcessedChunk with
      | none =>
        rw [processJob_eq_lpcNull job env db0 durs hmb hsp hk] at hexit ⊢
        have he : e = lpcNullMsg := by
          simp only [failRun, RunResult.exit, ExitKind.failedExit.injEq] at hexit
          exact hexit.symm
        subst he
        refine ⟨rfl, rfl, ?_, ?_⟩ <;> simp [failRun]
      | some k =>
        obtain ⟨_, _, h3, _, _, _, h7⟩ :=
          processJob_shape job env db0 durs k hmb hsp hk
        obtain ⟨hcl, hst, herr⟩ := h7 e hexit
        exact ⟨hst, herr, hcl, h3⟩

/-- Witness for the amended claim C5 at the concrete failing scenario. -/
theorem claim5_failure_state_witness :
    (processJob jobEx envC5 dbC5a).db.transcript.status = .failed ∧
    (processJob jobEx envC5 dbC5a).db.transcript.errorMessage =
      some ("Job Interrupted: " ++ "boom") ∧
    Event.cleanup ∉ (processJob jobEx envC5 dbC5a).events := by
  obtain ⟨h1, h2, h3, _⟩ :=
    claim5_failure_state jobEx envC5 dbC5a "boom" (by decide)
  exact ⟨h1, h2, h3⟩

theorem splitChunksFrom_length (cd : ℚ) (durs : List ℚ) :
    ∀ i0, (splitChunksFrom cd i0 durs).length = durs.length := by
  induction durs with
  | nil => intro i0; rfl
  | cons d ds ih =>
    intro i0
    simp [splitChunksFrom, ih]

theorem commitLpcs_append (a b : List Event) :
    commitLpcs (a ++ b) = commitLpcs a ++ commitLpcs b :=
  List.filterMap_append a b _

theorem chain_le_cons_self {a : Nat} {l : List Nat}
    (h : List.Chain' (fun x y => x ≤ y) (a :: l)) :
    List.Chain' (fun x y => x ≤ y) (a :: a :: l) :=
  List.chain'_cons.mpr ⟨le_refl a, h⟩

theorem chain_le_drop_last {a b : Nat} {l : List Nat}
    (h : List.Chain' (fun x y => x ≤ y) (a :: l ++ [b])) :
    List.Chain' (fun x y => x ≤ y) (a :: l) := by
  have h2 : List.Chain' (fun x y => x ≤ y) ((a :: l) ++ [b]) := by
    simpa using h
  exact List.Chain'.left_of_append h2

/-- Checkpoint behaviour of the per-chunk loop: starting from a committed
checkpoint m with total_chunks committed as the chunk count, every commit of
the loop carries a checkpoint between m and the total, the committed
checkpoints form a non-decreasing chain ending at the final committed value,
and total_chunks is never changed. -/
theorem go_chain (env : Env) (total k : Nat) :
    ∀ (durs : List ℚ) (i0 : Nat) (st : LoopSt) (m : Nat),
    st.committed.transcript.lastProcessedChunk = some m →
    st.committed.transcript.totalChunks = some total →
    m ≤ total → m ≤ max k i0 → i0 + durs.length ≤ total →
    ∃ Δ m2,
      (go env total k (splitChunksFrom 60 i0 durs) st).1.events =
        st.events ++ Δ ∧
      (go env total k (splitChunksFrom 60 i0 durs)
        st).1.committed.transcript.lastProcessedChunk = some m2 ∧
      (go env total k (splitChunksFrom 60 i0 durs)
        st).1.committed.transcript.totalChunks = some total ∧
      m ≤ m2 ∧ m2 ≤ total ∧
      List.Chain' (fun a b => a ≤ b)
        (m :: (commitLpcs Δ).map Prod.fst ++ [m2]) ∧
      (∀ p ∈ commitLpcs Δ, p.1 ≤ total ∧ p.2 = some total) := by
  intro durs
  induction durs with
  | nil =>
    intro i0 st m hm ht hmt _ _
    refine ⟨[], m, ?_, hm, ht, le_refl m, hmt, ?_, ?_⟩
    · simp [splitChunksFrom, go]
    · simp [commitLpcs]
    · simp [commitLpcs]
  | cons d ds ih =>
    intro i0 st m hm ht hmt hmax hidx
    simp only [List.length_cons] at hidx
    by_cases hq : env.qCancel i0
    · have hgo : go env total k (splitChunksFrom 60 i0 (d :: ds)) st =
          (st, .flagCancel) := by
        simp [splitChunksFrom, go, hq]
      refine ⟨[], m, ?_, ?_, ?_, le_refl m, hmt, ?_, ?_⟩ <;>
        simp [hgo, hm, ht, commitLpcs]
    · by_cases hk2 : i0 < k
      · have hgo : go env total k (splitChunksFrom 60 i0 (d :: ds)) st =
            go env total k (splitChunksFrom 60 (i0 + 1) ds) st := by
          simp [splitChunksFrom, go, hq, hk2]
        rw [hgo]
        exact ih (i0 + 1) st m hm ht hmt
          (le_trans hmax (max_le_max (le_refl k) (Nat.le_succ i0)))
          (by omega)
      · by_cases hs1 : env.statusCheck1 i0 = .canceled
        · have hgo : go env total k (splitChunksFrom 60 i0 (d :: ds)) st =
              ({ st with events := st.events ++ [.cleanup] }, .dbCancel) := by
            simp [splitChunksFrom, go, hq, hk2, hs1]
          refine ⟨[.cleanup], m, ?_, ?_, ?_, le_refl m, hmt, ?_, ?_⟩ <;>
            simp [hgo, hm, ht, commitLpcs]
        · cases heng : env.engine i0 with
          | error e =>
            have hgo : go env total k (splitChunksFrom 60 i0 (d :: ds)) st =
                ({ st with events := st.events ++ [.transcribeCalled i0] },
                 .engineErr e) := by
              simp [splitChunksFrom, go, hq, hk2, hs1, heng]
            refine ⟨[.transcribeCalled i0], m, ?_, ?_, ?_, le_refl m, hmt,
              ?_, ?_⟩ <;> simp [hgo, hm, ht, commitLpcs]
          | ok pr =>
            by_cases hs2 : env.statusCheck2 i0 = .canceled
            · have hgo : go env total k (splitChunksFrom 60 i0 (d :: ds)) st =
                  ({ st with
                     lang := if langFalsy st.lang && !(pr.2 = "") then some pr.2
                       else st.lang
                     events := st.events ++ [.transcribeCalled i0, .cleanup] },
                   .dbCancel) := by
                simp [splitChunksFrom, go, hq, hk2, hs1, heng, hs2]
              refine ⟨[.transcribeCalled i0, .cleanup], m, ?_, ?_, ?_,
                le_refl m, hmt, ?_, ?_⟩ <;> simp [hgo, hm, ht, commitLpcs]
            · have hki : k ≤ i0 := Nat.le_of_not_lt hk2
              have hmi : m ≤ i0 + 1 := by
                have h := hmax
                rw [max_eq_right hki] at h
                omega
              have hc : (⟨i0, (i0 : ℚ) * 60, d⟩ : ChunkInfo).index = i0 := rfl
              have hgo : go env total k (splitChunksFrom 60 i0 (d :: ds)) st =
                  go env total k (splitChunksFrom 60 (i0 + 1) ds)
                    (stepState env total ⟨i0, (i0 : ℚ) * 60, d⟩ pr.1 pr.2 st) := by
                simp [splitChunksFrom, go, hq, hk2, hs1, heng, hs2]
              rw [hgo]
              have hst2lpc : (stepState env total ⟨i0, (i0 : ℚ) * 60, d⟩ pr.1
                  pr.2 st).committed.transcript.lastProcessedChunk =
                  some (i0 + 1) := by
                simp [stepState, stepTranscript]
              have hst2tot : (stepState env total ⟨i0, (i0 : ℚ) * 60, d⟩ pr.1
                  pr.2 st).committed.transcript.totalChunks = some total := by
                simp [stepState, stepTranscript, ht]
              have hit : i0 + 1 ≤ total := by omega
              obtain ⟨Δr, m2, h1, h2, h3, h4, h5, h6, h7⟩ :=
                ih (i0 + 1)
                  (stepState env total ⟨i0, (i0 : ℚ) * 60, d⟩ pr.1 pr.2 st)
                  (i0 + 1) hst2lpc hst2tot hit (le_max_right k (i0 + 1))
                  (by omega)
              refine ⟨[.transcribeCalled i0,
                .commitT (stepTranscript env total ⟨i0, (i0 : ℚ) * 60, d⟩
                  st.committed.transcript)] ++ Δr, m2, ?_, h2, h3,
                le_trans hmi h4, h5, ?_, ?_⟩
              · rw [h1]
                simp [stepState]
              · have hpair : commitLpcs ([Event.transcribeCalled i0,
                    Event.commitT (stepTranscript env total
                      ⟨i0, (i0 : ℚ) * 60, d⟩ st.committed.transcript)] ++ Δr) =
                    (i0 + 1, some total) :: commitLpcs Δr := by
                  simp [commitLpcs_append, commitLpcs, stepTranscript, ht]
                rw [hpair]
                simp only [List.map_cons]
                exact List.chain'_cons.mpr ⟨hmi, h6⟩
              · intro p hp
                have hpair : commitLpcs ([Event.transcribeCalled i0,
                    Event.commitT (stepTranscript env total
                      ⟨i0, (i0 : ℚ) * 60, d⟩ st.committed.transcript)] ++ Δr) =
                    (i0 + 1, some total) :: commitLpcs Δr := by
                  simp [commitLpcs_append, commitLpcs, stepTranscript, ht]
                rw [hpair] at hp
                rcases List.mem_cons.mp hp with hp2 | hp2
                · subst hp2
                  exact ⟨hit, rfl⟩
                · exact h7 p hp2

/-- Claim C3: throughout a single processing attempt started from a
committed checkpoint k that respects the chunk count, the committed
last_processed_chunk values form a non-decreasing sequence, and every commit
whose total_chunks is known carries a checkpoint at most that total. -/
theorem claim3_lpc_monotone (job : TranscriptionJob) (env : Env) (db0 : Db)
    (k : Nat)
    (hk : db0.transcript.lastProcessedChunk = some k)
    (htot : ∀ n, db0.transcript.totalChunks = some n → k ≤ n)
    (hsplit : ∀ durs, env.split = .ok durs → k ≤ durs.length) :
    List.Chain' (fun a b => a ≤ b)
      (k :: (commitLpcs (processJob job env db0).events).map Prod.fst) ∧
    ∀ p ∈ commitLpcs (processJob job env db0).events, ∀ n,
      p.2 = some n → p.1 ≤ n := by
  cases hmb : env.mediaExists with
  | false =>
    rw [processJob_eq_noMedia job env db0 hmb]
    constructor
    · simp [failRun, failDb, commitLpcs, hk]
    · intro p hp n hpn
      simp [failRun, failDb, commitLpcs, hk] at hp
      subst hp
      exact htot n hpn
  | true =>
    cases hsp : env.split with
    | error e2 =>
      rw [processJob_eq_splitErr job env db0 e2 hmb hsp]
      constructor
      · simp [failRun, failDb, commitLpcs, hk]
      · intro p hp n hpn
        simp [failRun, failDb, commitLpcs, hk] at hp
        subst hp
        exact htot n hpn
    | ok durs =>
      have hkd : k ≤ durs.length := hsplit durs hsp
      have hlen : (splitChunks 60 durs).length = durs.length :=
        splitChunksFrom_length 60 durs 0
      rw [processJob_eq_main job env db0 durs k hmb hsp hk]
      have hin1 : (initSt job env db0 durs k).committed.transcript.lastProcessedChunk =
          some k := hk
      have hin2 : (initSt job env db0 durs k).committed.transcript.totalChunks =
          some (splitChunks 60 durs).length := rfl
      obtain ⟨Δ, m2, h1, h2, h3, h4, h5, h6, h7⟩ :=
        go_chain env (splitChunks 60 durs).length k durs 0
          (initSt job env db0 durs k) k hin1 hin2 (by omega) (le_max_left k 0)
          (by omega)
      have hr : runLoop job env db0 durs k =
          go env (splitChunks 60 durs).length k (splitChunks 60 durs)
            (initSt job env db0 durs k) := rfl
      have hr2 : go env (splitChunks 60 durs).length k (splitChunks 60 durs)
            (initSt job env db0 durs k) =
          go env (splitChunks 60 durs).length k (splitChunksFrom 60 0 durs)
            (initSt job env db0 durs k) := rfl
      rw [← hr2, ← hr] at h1 h2 h3
      have hinev : (initSt job env db0 durs k).events =
          [Event.splitCalled,
           Event.commitT (splitCommit env db0 (splitChunks 60 durs).length)] := rfl
      rw [hinev] at h1
      have hlpcsInit : commitLpcs [Event.splitCalled,
          Event.commitT (splitCommit env db0 (splitChunks 60 durs).length)] =
          [(k, some (splitChunks 60 durs).length)] := by
        simp [commitLpcs, splitCommit, hk]
      cases hex : (runLoop job env db0 durs k).2 with
      | done =>
        have hfinlpc : (finalizeT env (runLoop job env db0 durs k).1).lastProcessedChunk =
            some m2 := h2
        have hfintot : (finalizeT env (runLoop job env db0 durs k).1).totalChunks =
            some (splitChunks 60 durs).length := h3
        have hevs : commitLpcs ((runLoop job env db0 durs k).1.events ++
            [Event.commitT (finalizeT env (runLoop job env db0 durs k).1),
             Event.cleanup]) =
            (k, some (splitChunks 60 durs).length) :: commitLpcs Δ ++
              [(m2, some (splitChunks 60 durs).length)] := by
          rw [commitLpcs_append, h1, commitLpcs_append, hlpcsInit]
          simp [commitLpcs, hfinlpc, hfintot]
        constructor
        · rw [hevs]
          simp only [List.map_cons, List.map_append, List.map_cons,
            List.map_nil, List.cons_append]
          exact chain_le_cons_self (by simpa using h6)
        · intro p hp n hpn
          rw [hevs] at hp
          rcases List.mem_cons.mp hp with hp2 | hp2
          · subst hp2
            simp only [Option.some.injEq] at hpn
            subst hpn
            exact le_trans hkd (by omega)
          · rcases List.mem_append.mp hp2 with hp3 | hp3
            · obtain ⟨hb1, hb2⟩ := h7 p hp3
              rw [hb2] at hpn
              simp only [Option.some.injEq] at hpn
              subst hpn
              exact hb1
            · simp only [List.mem_singleton] at hp3
              subst hp3
              simp only [Option.some.injEq] at hpn
              subst hpn
              exact h5
      | flagCancel =>
        have hevs : commitLpcs ((runLoop job env db0 durs k).1.events) =
            (k, some (splitChunks 60 durs).length) :: commitLpcs Δ := by
          rw [h1, commitLpcs_append, hlpcsInit]
          simp
        constructor
        · rw [hevs]
          simp only [List.map_cons]
          exact chain_le_cons_self (chain_le_drop_last h6)
        · intro p hp n hpn
          rw [hevs] at hp
          rcases List.mem_cons.mp hp with hp2 | hp2
          · subst hp2
            simp only [Option.some.injEq] at hpn
            subst hpn
            exact le_trans hkd (by omega)
          · obtain ⟨hb1, hb2⟩ := h7 p hp2
            rw [hb2] at hpn
            simp only [Option.some.injEq] at hpn
            subst hpn
            exact hb1
      | dbCancel =>
        have hevs : commitLpcs ((runLoop job env db0 durs k).1.events) =
            (k, some (splitChunks 60 durs).length) :: commitLpcs Δ := by
          rw [h1, commitLpcs_append, hlpcsInit]
          simp
        constructor
        · rw [hevs]
          simp only [List.map_cons]
          exact chain_le_cons_self (chain_le_drop_last h6)
        · intro p hp n hpn
          rw [hevs] at hp
          rcases List.mem_cons.mp hp with hp2 | hp2
          · subst hp2
            simp only [Option.some.injEq] at hpn
            subst hpn
            exact le_trans hkd (by omega)
          · obtain ⟨hb1, hb2⟩ := h7 p hp2
            rw [hb2] at hpn
            simp only [Option.some.injEq] at hpn
            subst hpn
            exact hb1
      | engineErr e =>
        have hfail1 : (failDb (runLoop job env db0 durs k).1.committed
            e).transcript.lastProcessedChunk = some m2 := h2
        have hfail2 : (failDb (runLoop job env db0 durs k).1.committed
            e).transcript.totalChunks = some (splitChunks 60 durs).length := h3
        have hevs : commitLpcs ((failRun (runLoop job env db0 durs k).1.committed
            (runLoop job env db0 durs k).1.events e).events) =
            (k, some (splitChunks 60 durs).length) :: commitLpcs Δ ++
              [(m2, some (splitChunks 60 durs).length)] := by
          simp only [failRun, RunResult.events]
          rw [commitLpcs_append, h1, commitLpcs_append, hlpcsInit]
          simp [commitLpcs, hfail1, hfail2]
        constructor
        · rw [hevs]
          simp only [List.map_cons, List.map_append, List.map_cons,
            List.map_nil, List.cons_append]
          exact chain_le_cons_self (by simpa using h6)
        · intro p hp n hpn
          rw [hevs] at hp
          rcases List.mem_cons.mp hp with hp2 | hp2
          · subst hp2
            simp only [Option.some.injEq] at hpn
            subst hpn
            exact le_trans hkd (by omega)
          · rcases List.mem_append.mp hp2 with hp3 | hp3
            · obtain ⟨hb1, hb2⟩ := h7 p hp3
              rw [hb2] at hpn
              simp only [Option.some.injEq] at hpn
              subst hpn
              exact hb1
            · simp only [List.mem_singleton] at hp3
              subst hp3
              simp only [Option.some.injEq] at hpn
              subst hpn
              exact h5

/-- Witness for claim C3 at the concrete resume scenario. -/
theorem claim3_lpc_monotone_witness :
    List.Chain' (fun a b => a ≤ b)
      (2 :: (commitLpcs (processJob jobEx envC1 dbC1).events).map Prod.fst) ∧
    ∀ p ∈ commitLpcs (processJob jobEx envC1 dbC1).events, ∀ n,
      p.2 = some n → p.1 ≤ n := by
  refine claim3_lpc_monotone jobEx envC1 dbC1 2 rfl ?_ ?_
  · intro n hn
    simp [dbC1] at hn
    omega
  · intro durs h
    injection h with h2
    subst h2
    decide

/-- Sorting by start_time of a list split into an already-separated prefix
and an already strictly sorted suffix keeps the suffix in place, provided
the prefix has pairwise distinct start times and every prefix start lies
strictly below every suffix start. -/
theorem sortByStart_append_sep (l1 l2 : List Segment)
    (hnd : List.Pairwise (fun a b : Segment => a.startTime ≠ b.startTime) l1)
    (hs2 : List.Pairwise segLT l2)
    (hsep : ∀ a ∈ l1, ∀ b ∈ l2, a.startTime < b.startTime) :
    sortByStart (l1 ++ l2) = sortByStart l1 ++ l2 := by
  have hperm1 : List.Perm (sortByStart (l1 ++ l2)) (l1 ++ l2) :=
    List.perm_insertionSort segLE (l1 ++ l2)
  have hperm0 : List.Perm (sortByStart l1) l1 := List.perm_insertionSort segLE l1
  have hperm2 : List.Perm (sortByStart l1 ++ l2) (l1 ++ l2) :=
    hperm0.append_right l2
  have hsle1 : List.Sorted segLE (sortByStart (l1 ++ l2)) :=
    List.sorted_insertionSort segLE (l1 ++ l2)
  have hsle0 : List.Sorted segLE (sortByStart l1) :=
    List.sorted_insertionSort segLE l1
  have hsle2 : List.Sorted segLE (sortByStart l1 ++ l2) := by
    rw [List.Sorted, List.pairwise_append]
    refine ⟨hsle0, hs2.imp (fun h => le_of_lt h), ?_⟩
    intro a ha b hb
    have ha2 : a ∈ l1 := by
      simpa [sortByStart] using ha
    exact le_of_lt (hsep a ha2 b hb)
  have hne : List.Pairwise (fun a b : Segment => a.startTime ≠ b.startTime)
      (l1 ++ l2) := by
    rw [List.pairwise_append]
    exact ⟨hnd, hs2.imp (fun h => ne_of_lt h),
      fun a ha b hb => ne_of_lt (hsep a ha b hb)⟩
  have hne1 : List.Pairwise (fun a b : Segment => a.startTime ≠ b.startTime)
      (sortByStart (l1 ++ l2)) :=
    (hperm1.pairwise_iff (fun h => h.symm)).mpr hne
  have hne2 : List.Pairwise (fun a b : Segment => a.startTime ≠ b.startTime)
      (sortByStart l1 ++ l2) :=
    (hperm2.pairwise_iff (fun h => h.symm)).mpr hne
  have hslt1 : List.Pairwise segLT (sortByStart (l1 ++ l2)) :=
    (hsle1.and hne1).imp (fun h => lt_of_le_of_ne h.1 h.2)
  have hslt2 : List.Pairwise segLT (sortByStart l1 ++ l2) :=
    (hsle2.and hne2).imp (fun h => lt_of_le_of_ne h.1 h.2)
  exact List.eq_of_perm_of_sorted (hperm1.trans hperm2.symm) hslt1 hslt2

/-- Invariant of the per-chunk loop for a run with no cancellation and a
wellformed, always succeeding engine: the loop finishes normally, the
committed segments stay the base followed by new chunkwise segments whose
start times are strictly increasing and at least 60 k, and the text buffer
is exactly the base buffer followed by the new texts in insertion order. -/
theorem go_complete (env : Env) (total k : Nat)
    (hq : ∀ i, env.qCancel i = false)
    (hs1 : ∀ i, env.statusCheck1 i ≠ .canceled)
    (hs2c : ∀ i, env.statusCheck2 i ≠ .canceled)
    (heng : ∀ i, ∃ raw lang, env.engine i = .ok (raw, lang) ∧ RawWF raw) :
    ∀ (durs : List ℚ) (i0 : Nat) (st : LoopSt) (base : List Segment)
      (accBase : List String) (new : List Segment),
    st.committed.segments = base ++ new →
    st.acc = accBase ++ new.map (fun s => s.text) →
    List.Pairwise segLT new →
    (∀ s ∈ new, 60 * (k : ℚ) ≤ s.startTime ∧ s.startTime < 60 * (i0 : ℚ)) →
    ∃ new2,
      (go env total k (splitChunksFrom 60 i0 durs) st).2 = .done ∧
      (go env total k (splitChunksFrom 60 i0 durs) st).1.committed.segments =
        base ++ new2 ∧
      (go env total k (splitChunksFrom 60 i0 durs) st).1.acc =
        accBase ++ new2.map (fun s => s.text) ∧
      List.Pairwise segLT new2 ∧
      (∀ s ∈ new2, 60 * (k : ℚ) ≤ s.startTime) := by
  intro durs
  induction durs with
  | nil =>
    intro i0 st base accBase new hseg hacc hpw hbnd
    refine ⟨new, ?_, ?_, ?_, hpw, fun s hs => (hbnd s hs).1⟩ <;>
      simp [splitChunksFrom, go, hseg, hacc]
  | cons d ds ih =>
    intro i0 st base accBase new hseg hacc hpw hbnd
    by_cases hk2 : i0 < k
    · have hgo : go env total k (splitChunksFrom 60 i0 (d :: ds)) st =
          go env total k (splitChunksFrom 60 (i0 + 1) ds) st := by
        simp [splitChunksFrom, go, hq i0, hk2]
      rw [hgo]
      apply ih (i0 + 1) st base accBase new hseg hacc hpw
      intro s hs
      refine ⟨(hbnd s hs).1, lt_of_lt_of_le (hbnd s hs).2 ?_⟩
      have hcast : (i0 : ℚ) ≤ ((i0 + 1 : Nat) : ℚ) := by
        exact_mod_cast Nat.le_succ i0
      linarith
    · obtain ⟨raw, lang, hengi, hwf⟩ := heng i0
      have hki : k ≤ i0 := Nat.le_of_not_lt hk2
      have hkiq : (k : ℚ) ≤ (i0 : ℚ) := by exact_mod_cast hki
      have hgo : go env total k (splitChunksFrom 60 i0 (d :: ds)) st =
          go env total k (splitChunksFrom 60 (i0 + 1) ds)
            (stepState env total ⟨i0, (i0 : ℚ) * 60, d⟩ raw lang st) := by
        simp [splitChunksFrom, go, hq i0, hk2, hs1 i0, hengi, hs2c i0]
      rw [hgo]
      have hlow : ∀ b ∈ shiftSegs ((i0 : ℚ) * 60) raw,
          (i0 : ℚ) * 60 ≤ b.startTime ∧ b.startTime < 60 * ((i0 : ℚ) + 1) := by
        intro b hb
        simp only [shiftSegs, List.mem_map] at hb
        obtain ⟨rb, hrb, hfb⟩ := hb
        obtain ⟨hrb0, hrb60⟩ := hwf.2 rb hrb
        subst hfb
        constructor
        · simp only []
          linarith
        · simp only []
          linarith
      have hpw2 : List.Pairwise segLT (new ++ shiftSegs ((i0 : ℚ) * 60) raw) := by
        rw [List.pairwise_append]
        refine ⟨hpw, ?_, ?_⟩
        · rw [shiftSegs, List.pairwise_map]
          exact hwf.1.imp (fun h => by
            simp only [segLT]
            exact add_lt_add_right h _)
        · intro a ha b hb
          have hau : a.startTime < 60 * (i0 : ℚ) := (hbnd a ha).2
          have hbl := (hlow b hb).1
          simp only [segLT]
          linarith
      have hbnd2 : ∀ s ∈ new ++ shiftSegs ((i0 : ℚ) * 60) raw,
          60 * (k : ℚ) ≤ s.startTime ∧
          s.startTime < 60 * (((i0 + 1 : Nat)) : ℚ) := by
        intro s hs
        rcases List.mem_append.mp hs with hs2 | hs2
        · obtain ⟨hl, hu⟩ := hbnd s hs2
          refine ⟨hl, ?_⟩
          push_cast
          linarith
        · obtain ⟨hl, hu⟩ := hlow s hs2
          constructor
          · linarith
          · push_cast
            linarith
      have hseg2 : (stepState env total ⟨i0, (i0 : ℚ) * 60, d⟩ raw lang
          st).committed.segments =
          base ++ (new ++ shiftSegs ((i0 : ℚ) * 60) raw) := by
        simp [stepState, hseg]
      have hacc2 : (stepState env total ⟨i0, (i0 : ℚ) * 60, d⟩ raw lang st).acc =
          accBase ++ (new ++ shiftSegs ((i0 : ℚ) * 60) raw).map
            (fun s => s.text) := by
        simp [stepState, hacc]
      exact ih (i0 + 1) _ base accBase
        (new ++ shiftSegs ((i0 : ℚ) * 60) raw) hseg2 hacc2 hpw2 hbnd2

/-- Claim C4: a run with no cancellation and a wellformed always-succeeding
engine finishes COMPLETED, keeps every pre-existing persisted segment
exactly once (as a prefix of the final segment list), and stores as
full_text exactly the space-joined concatenation of all persisted segment
texts in start_time order, also when resuming from a nonzero checkpoint. -/
theorem claim4_completed_fulltext (job : TranscriptionJob) (env : Env)
    (db0 : Db) (durs : List ℚ) (k : Nat)
    (hm : env.mediaExists = true) (hsp : env.split = .ok durs)
    (hk : db0.transcript.lastProcessedChunk = some k)
    (hq : ∀ i, env.qCancel i = false)
    (hs1 : ∀ i, env.statusCheck1 i ≠ .canceled)
    (hs2c : ∀ i, env.statusCheck2 i ≠ .canceled)
    (heng : ∀ i, ∃ raw lang, env.engine i = .ok (raw, lang) ∧ RawWF raw)
    (hbase : ∀ s ∈ db0.segments, s.startTime < 60 * (k : ℚ))
    (hnd : List.Pairwise (fun a b : Segment => a.startTime ≠ b.startTime)
      db0.segments)
    (hk0 : k = 0 → db0.segments = []) :
    (processJob job env db0).exit = .finished ∧
    (processJob job env db0).db.transcript.status = .completed ∧
    (∃ tail, (processJob job env db0).db.segments = db0.segments ++ tail) ∧
    (processJob job env db0).db.transcript.fullText =
      some (concatTexts (sortByStart (processJob job env db0).db.segments)) := by
  rw [processJob_eq_main job env db0 durs k hm hsp hk]
  have hA : (if 0 < k then (sortByStart db0.segments).map (fun s => s.text)
      else []) = (sortByStart db0.segments).map (fun s => s.text) := by
    by_cases h0 : 0 < k
    · rw [if_pos h0]
    · rw [if_neg h0]
      rw [hk0 (by omega)]
      simp [sortByStart, List.insertionSort]
  have hin1 : (initSt job env db0 durs k).committed.segments =
      db0.segments ++ [] := by
    simp [initSt]
  have hin2 : (initSt job env db0 durs k).acc =
      (sortByStart db0.segments).map (fun s => s.text) ++
        ([] : List Segment).map (fun s => s.text) := by
    simp only [initSt, List.map_nil, List.append_nil]
    exact hA
  obtain ⟨new2, hdone, hseg, hacc, hpw2, hlow2⟩ :=
    go_complete env (splitChunks 60 durs).length k hq hs1 hs2c heng durs 0
      (initSt job env db0 durs k) db0.segments
      ((sortByStart db0.segments).map (fun s => s.text)) []
      hin1 hin2 (by simp) (by simp)
  have hr : runLoop job env db0 durs k =
      go env (splitChunks 60 durs).length k (splitChunksFrom 60 0 durs)
        (initSt job env db0 durs k) := rfl
  rw [← hr] at hdone hseg hacc
  rw [hdone]
  have hsortfin : sortByStart ((runLoop job env db0 durs k).1.committed.segments) =
      sortByStart db0.segments ++ new2 := by
    rw [hseg]
    exact sortByStart_append_sep db0.segments new2 hnd hpw2
      (fun a ha b hb => lt_of_lt_of_le (hbase a ha) (hlow2 b hb))
  refine ⟨rfl, rfl, ⟨new2, hseg⟩, ?_⟩
  show some (String.intercalate " " (runLoop job env db0 durs k).1.acc) = _
  rw [hacc, hsortfin]
  simp only [concatTexts, List.map_append]

/-- Witness for claim C4 at the concrete resume scenario: checkpoint 2 with
two pre-existing persisted segments and three chunk files. -/
theorem claim4_completed_fulltext_witness :
    (processJob jobEx envC1 dbC1).exit = .finished ∧
    (processJob jobEx envC1 dbC1).db.transcript.fullText =
      some (concatTexts (sortByStart (processJob jobEx envC1 dbC1).db.segments)) := by
  obtain ⟨h1, _, _, h4⟩ :=
    claim4_completed_fulltext jobEx envC1 dbC1 [60, 60, 30] 2 rfl rfl rfl
      (fun i => rfl) (fun i => by simp [envC1]) (fun i => by simp [envC1])
      (fun i => ⟨[⟨0, 2, "x"⟩], "en", rfl,
        ⟨by simp, by
          intro s hs
          simp only [List.mem_singleton] at hs
          subst hs
          norm_num⟩⟩)
      (by
        intro s hs
        simp only [dbC1, List.mem_cons, List.not_mem_nil, or_false] at hs
        rcases hs with hs | hs <;> subst hs <;> norm_num)
      (by norm_num [dbC1])
      (by omega)
  exact ⟨h1, h4⟩

end VTG
